import Mathlib

/-!
Verification of the reorderable data-grid component (`BasicTable`): a shallow
embedding of its row/column model, the drag-end reorder, the popover-driven
column deletion, the single-key sort engine, and the toolbar actions, together
with proofs of the documented properties.
-/

namespace TableDemo

/-- Scalar cell values of a row record (JS string, number or boolean). The
numeric fields of the fixture are integers, so numbers are modelled as `Int`. -/
inductive JsValue where
  | vstr (s : String)
  | vnum (n : Int)
  | vbool (b : Bool)
deriving DecidableEq, Repr

/-- Scalar type tag of a `JsValue`, used to state when two cell values are
compared by the same typed branch of the sort comparator. -/
inductive JsType where
  | tstr
  | tnum
  | tbool
deriving DecidableEq, Repr

/-- Type tag of a value. -/
def JsValue.typeOf : JsValue → JsType
  | .vstr _ => .tstr
  | .vnum _ => .tnum
  | .vbool _ => .tbool

/-- Row record of the grid (`Person` in the source): a stable identifier
`userId` plus an open-ended field map. A field absent from the map reads as JS
`undefined`, matching `row[accessorKey]` on a plain object; the comparator
treats `null` and `undefined` alike, so both are modelled by absence. -/
structure Person where
  userId : String
  fields : List (String × JsValue)
deriving DecidableEq, Repr

/-- Reading `row[accessorKey]`: the first binding of `key` in the field map,
`none` for JS `undefined`/`null`. -/
def getField (p : Person) (key : String) : Option JsValue :=
  p.fields.lookup key

/-- Column descriptor (`ColumnDef<Person>` as the component uses it): the `id`,
the optional `accessorKey` (absent on the fixed drag-handle column, present on
every dynamic column) and the display `header`. Rendering callbacks carry no
state and are irrelevant to the claims. -/
structure ColumnDef where
  id : String
  accessorKey : Option String
  header : String
deriving DecidableEq, Repr

/-- The initial `dynamicColumns` state of `BasicTable`. -/
def initialColumns : List ColumnDef :=
  [ { id := "firstName", accessorKey := some "firstName", header := "First Name" },
    { id := "lastName", accessorKey := some "lastName", header := "Last Name" },
    { id := "age", accessorKey := some "age", header := "Age" },
    { id := "visits", accessorKey := some "visits", header := "Visits" },
    { id := "status", accessorKey := some "status", header := "Status" },
    { id := "progress", accessorKey := some "progress", header := "Profile Progress" } ]

/-- First-occurrence replacement on character lists: JS
`String.prototype.replace` with a string pattern rewrites only the first
occurrence of the pattern. -/
def replaceFirstAux (pat repl : List Char) : List Char → List Char
  | [] => []
  | c :: cs =>
    if pat.isPrefixOf (c :: cs) then repl ++ (c :: cs).drop pat.length
    else c :: replaceFirstAux pat repl cs

/-- JS `s.replace(pat, repl)` for string patterns (first occurrence only), as
`handleSort` uses it to strip the `col-` marker from a column identifier. -/
def replaceFirst (s pat repl : String) : String :=
  ⟨replaceFirstAux pat.data repl.data s.data⟩

/-- Decimal digit characters of `n`, most significant first, via fuel-bounded
recursion so the kernel can evaluate it. -/
def natDigitsAux : Nat → Nat → List Char
  | 0, _ => []
  | fuel + 1, n =>
    if n < 10 then [Nat.digitChar n]
    else natDigitsAux fuel (n / 10) ++ [Nat.digitChar (n % 10)]

/-- Decimal rendering of a natural number, modelling the JS template literal
interpolation of a number. -/
def natToString (n : Nat) : String :=
  ⟨natDigitsAux (n + 1) n⟩

/-- Left-to-right decimal decoding, inverse of `natDigitsAux` on its image. -/
def decodeDigits (l : List Char) : Nat :=
  l.foldl (fun acc c => acc * 10 + (c.toNat - 48)) 0

/-- The dnd-kit `arrayMove(array, from, to)` used by `handleDragEnd`: remove
the element at `from` and reinsert it at position `to` of the shortened array
(`splice` semantics). On an unresolved `from` the model keeps the sequence, the
defensive no-op of the ordering contract; `handleDragEnd` only calls it with
indices obtained from `findIndex`. -/
def arrayMove (l : List α) (i j : Nat) : List α :=
  match l[i]? with
  | none => l
  | some x => (l.eraseIdx i).insertIdx j x

/-- Sort direction chosen in the level-2 popover. -/
inductive Direction where
  | asc
  | desc
deriving DecidableEq, Repr

/-- String comparison as a sign value, modelling `localeCompare` by the
codepoint order on strings. -/
def strCmp (a b : String) : Int :=
  if a < b then -1 else if b < a then 1 else 0

/-- The comparator body of `handleSort` on the two cell values `valA`/`valB`:
a null/undefined left operand returns 1 before `valB` is even inspected, a
null right operand returns -1; two strings, two numbers or two booleans
compare within their type with the direction applied; any other pair returns
0. -/
def cmpVals (dir : Direction) : Option JsValue → Option JsValue → Int
  | none, _ => 1
  | some _, none => -1
  | some (.vstr a), some (.vstr b) =>
    match dir with
    | .asc => strCmp a b
    | .desc => strCmp b a
  | some (.vnum a), some (.vnum b) =>
    match dir with
    | .asc => a - b
    | .desc => b - a
  | some (.vbool a), some (.vbool b) =>
    match dir with
    | .asc => if a = b then 0 else if a then 1 else -1
    | .desc => if a = b then 0 else if a then -1 else 1
  | some _, some _ => 0

/-- Row order induced by the comparator at a column key: `a` may stay before
`b` exactly when the comparator does not order `b` strictly first. -/
def rowLe (dir : Direction) (key : String) (a b : Person) : Bool :=
  decide (cmpVals dir (getField a key) (getField b key) ≤ 0)

/-- The `[...data].sort(comparator)` step of `handleSort`: JS guarantees a
stable sort, modelled by `List.mergeSort` on `rowLe`. -/
def sortRows (data : List Person) (key : String) (dir : Direction) : List Person :=
  data.mergeSort (rowLe dir key)

/-- Resolution of a sort request to a field accessor, as `handleSort` performs
it: strip the first `col-` occurrence, look for a dynamic column with that id
carrying an `accessorKey`, and reject a missing column, a missing accessor, or
a JS-falsy (empty) accessor. -/
def resolveAccessor (cols : List ColumnDef) (columnId : String) : Option String :=
  let actual := replaceFirst columnId "col-" ""
  match cols.find? fun c => c.id == actual && c.accessorKey.isSome with
  | none => none
  | some c =>
    match c.accessorKey with
    | none => none
    | some key => if key == "" then none else some key

/-- Result of `handleSort`: the (possibly re-ordered) row collection and
whether the `console.warn` diagnostic fired. -/
structure SortResult where
  data : List Person
  warned : Bool
deriving DecidableEq, Repr

/-- The `handleSort(columnId, direction)` handler: on an unresolvable column it
warns and leaves the rows as they are; otherwise it replaces the row collection
with the sorted copy. -/
def handleSort (cols : List ColumnDef) (data : List Person) (columnId : String)
    (dir : Direction) : SortResult :=
  match resolveAccessor cols columnId with
  | none => { data := data, warned := true }
  | some key => { data := sortRows data key dir, warned := false }

/-- Position of the row whose prefixed identifier (`row-` plus `userId`)
equals `s`, mirroring the `findIndex` calls of `handleDragEnd`. -/
def rowIdxOf (data : List Person) (s : String) : Option Nat :=
  data.findIdx? fun r => ("row-" ++ r.userId) == s

/-- Position of the dynamic column whose prefixed identifier (`col-` plus id)
equals `s`. -/
def colIdxOf (cols : List ColumnDef) (s : String) : Option Nat :=
  cols.findIdx? fun c => ("col-" ++ c.id) == s

/-- Row branch of `handleDragEnd`: runs only for a `row-` prefixed source, and
moves the row when both identifiers resolve to positions. -/
def dragEndRows (data : List Person) (activeId overId : String) : List Person :=
  if activeId.startsWith "row-" then
    match rowIdxOf data activeId, rowIdxOf data overId with
    | some i, some j => arrayMove data i j
    | _, _ => data
  else data

/-- Column branch of `handleDragEnd`: runs only for a `col-` prefixed source,
and moves the dynamic column when both identifiers resolve to positions. -/
def dragEndCols (cols : List ColumnDef) (activeId overId : String) : List ColumnDef :=
  if activeId.startsWith "col-" then
    match colIdxOf cols activeId, colIdxOf cols overId with
    | some i, some j => arrayMove cols i j
    | _, _ => cols
  else cols

/-- Drag-end event: the dragged identifier and the drop target, if any. -/
structure DragEndEvent where
  activeId : String
  overId : Option String
deriving DecidableEq, Repr

/-- The `handleDragEnd` handler: nothing happens without a drop target or when
the target is the source; otherwise the row and column branches each reorder
their own sequence when the identifiers resolve. -/
def handleDragEnd (data : List Person) (cols : List ColumnDef) (e : DragEndEvent) :
    List Person × List ColumnDef :=
  match e.overId with
  | none => (data, cols)
  | some over =>
    if e.activeId = over then (data, cols)
    else (dragEndRows data e.activeId over, dragEndCols cols e.activeId over)

/-- Modelled from the spec: `makeData` (the fixture `./fixtures/makeData`,
which is not under `src/`) returns a freshly generated batch of `n` synthetic
person records. The claims settled here depend only on the batch replacing the
previous collection wholesale, so the records are synthetic and deterministic
here. -/
def makeData (n : Nat) : List Person :=
  (List.range n).map fun i => { userId := "generated-" ++ natToString i, fields := [] }

/-- Identifier generated by `addDynamicColumn` at counter value `k`, namely
`dynamic-col-` followed by the decimal rendering of `k`. -/
def dynColId (k : Nat) : String :=
  "dynamic-col-" ++ natToString k

/-- The `addDynamicColumn` toolbar action: append one column whose id and
accessor are generated from the successor of the current dynamic-column
count. -/
def addDynamicColumn (cols : List ColumnDef) : List ColumnDef :=
  cols ++ [{ id := dynColId (cols.length + 1),
             accessorKey := some (dynColId (cols.length + 1)),
             header := "동적 컬럼 " ++ natToString (cols.length + 1) }]

/-- Component state of `BasicTable` relevant to the claims: the row collection,
the dynamic-column sequence, the selection mapping (the list of selected
identifiers; an absent identifier is unselected) and the two popover levels
with their target columns. -/
structure TableState where
  data : List Person
  dynamicColumns : List ColumnDef
  rowSelection : List String
  showPopover : Bool
  targetColumnId : Option String
  showSortPopover : Bool
  sortColumnId : Option String
deriving DecidableEq, Repr

/-- The `rerender` toolbar action (`Regenerate`): `setData(() => makeData(count))`
and nothing else. -/
def rerender (st : TableState) (count : Nat) : TableState :=
  { st with data := makeData count }

/-- The `removeRow` toolbar action: keep exactly the rows whose `userId` is not
a key of the selection mapping, then `toggleAllRowsSelected(false)`, which
empties the selection. -/
def removeRow (st : TableState) : TableState :=
  { st with
    data := st.data.filter fun c => !(st.rowSelection.contains c.userId),
    rowSelection := [] }

/-- Delete action of the level-1 popover: reachable only while the popover is
shown with a target column; it filters the dynamic columns on the prefixed id
and closes both popover levels. -/
def deleteColumnAction (st : TableState) : TableState :=
  if st.showPopover then
    match st.targetColumnId with
    | some t =>
      { st with
        dynamicColumns := st.dynamicColumns.filter fun c => !(("col-" ++ c.id) == t),
        showPopover := false,
        showSortPopover := false }
    | none => st
  else st

/-- The column-sequence operations reachable from the toolbar and popover:
adding a column, the popover delete with its prefixed target identifier, and a
drag-end reorder with its raw event identifiers. -/
inductive ColOp where
  | add
  | delete (targetColumnId : String)
  | reorder (activeId : String) (overId : Option String)
deriving DecidableEq, Repr

/-- Effect of one column operation on the dynamic-column sequence, with the
guards of the originating handlers. -/
def applyColOp (cols : List ColumnDef) : ColOp → List ColumnDef
  | .add => addDynamicColumn cols
  | .delete t => cols.filter fun c => !(("col-" ++ c.id) == t)
  | .reorder a o =>
    match o with
    | none => cols
    | some over => if a = over then cols else dragEndCols cols a over

/-- Effect of a sequence of column operations, first operation first. -/
def applyColOps (cols : List ColumnDef) (ops : List ColOp) : List ColumnDef :=
  ops.foldl applyColOp cols

/-- Checks that no add-column operation occurs after a delete-column operation;
`seenDelete` records whether a delete has already occurred. -/
def noAddAfterDeleteAux (seenDelete : Bool) : List ColOp → Bool
  | [] => true
  | .add :: rest => !seenDelete && noAddAfterDeleteAux seenDelete rest
  | .delete _ :: rest => noAddAfterDeleteAux true rest
  | .reorder _ _ :: rest => noAddAfterDeleteAux seenDelete rest

/-- Checks that every add-column operation precedes every delete-column
operation in the sequence. -/
def noAddAfterDelete (ops : List ColOp) : Bool :=
  noAddAfterDeleteAux false ops

/-- Whether two optional cell values are compared by one typed branch of the
comparator: it holds unless both are present with distinct scalar types. -/
def sameTypeB : Option JsValue → Option JsValue → Bool
  | some v, some w => v.typeOf == w.typeOf
  | _, _ => true

/-- Identifier sequence of a column list. -/
def idsOf (cols : List ColumnDef) : List String :=
  cols.map (·.id)

/-- Invariant of the dynamic-column sequence while no deletion has occurred:
identifiers are pairwise distinct, the six initial columns are still counted,
and the counter of every generated identifier present is bounded by the
current length (so the next generated identifier is fresh). -/
def ColInv (cols : List ColumnDef) : Prop :=
  (idsOf cols).Nodup ∧ 6 ≤ cols.length ∧
    ∀ c ∈ cols, ∀ k : Nat, c.id = dynColId k → k ≤ cols.length

/-- Row `a` of the documented sort scenario: age 30. -/
def demoA : Person :=
  { userId := "a", fields := [("age", .vnum 30)] }

/-- Row `b` of the documented sort scenario: age undefined. -/
def demoB : Person :=
  { userId := "b", fields := [] }

/-- Row `c` of the documented sort scenario: age 25. -/
def demoC : Person :=
  { userId := "c", fields := [("age", .vnum 25)] }

/-- First of two rows whose sort value is undefined. -/
def rowN1 : Person :=
  { userId := "n1", fields := [] }

/-- Second of two rows whose sort value is undefined. -/
def rowN2 : Person :=
  { userId := "n2", fields := [] }

/-- A state with a non-empty selection and both popover levels open, reachable
by selecting a row, clicking a column header and hovering the sort button. -/
def stateWithSelectionAndPopovers : TableState :=
  { data := [demoA, demoB, demoC],
    dynamicColumns := initialColumns,
    rowSelection := ["a"],
    showPopover := true,
    targetColumnId := some "col-age",
    showSortPopover := true,
    sortColumnId := some "col-age" }

/-! Small-case equations for `List.mergeSort`, used to evaluate the sort on
the concrete scenarios (the function itself is defined by well-founded
recursion and does not reduce definitionally). -/

/-- Sorting a two-element list compares the two elements once. -/
theorem mergeSort_pair {α : Type} (le : α → α → Bool) (x y : α) :
    List.mergeSort [x, y] le = if le x y then [x, y] else [y, x] := by
  rw [List.mergeSort]
  simp only [List.splitInTwo_fst, List.splitInTwo_snd]
  norm_num [List.mergeSort_singleton, List.merge]

/-- Sorting a three-element list sorts the first two and merges the third. -/
theorem mergeSort_triple {α : Type} (le : α → α → Bool) (x y z : α) :
    List.mergeSort [x, y, z] le =
      List.merge (if le x y then [x, y] else [y, x]) [z] le := by
  rw [List.mergeSort]
  simp only [List.splitInTwo_fst, List.splitInTwo_snd]
  norm_num [List.mergeSort_singleton, mergeSort_pair]

/-! A merge keeps every element marked `bad` behind every unmarked element,
whenever the order relation always rejects a bad left operand and always
accepts a good-versus-bad pair. This drives the nulls-sort-last property: the
comparator of `handleSort` returns 1 whenever `valA` is null and -1 on
non-null versus null. -/

/-- Merging two lists whose bad elements already sit at the back keeps all bad
elements at the back. -/
theorem badLast_merge {α : Type} {bad : α → Bool} {le : α → α → Bool}
    (hb1 : ∀ a b : α, bad a = true → le a b = false)
    (hb2 : ∀ a b : α, bad a = false → bad b = true → le a b = true) :
    ∀ l₁ l₂ : List α,
      l₁.Pairwise (fun a b => bad a = true → bad b = true) →
      l₂.Pairwise (fun a b => bad a = true → bad b = true) →
      (List.merge l₁ l₂ le).Pairwise (fun a b => bad a = true → bad b = true)
  | [], l₂, _, h₂ => by simpa using h₂
  | _ :: l₁, [], h₁, _ => by simpa using h₁
  | x :: l₁, y :: l₂, h₁, h₂ => by
    rw [List.cons_merge_cons]
    by_cases h : le x y = true
    · rw [if_pos h]
      refine List.Pairwise.cons ?_ (badLast_merge hb1 hb2 l₁ (y :: l₂) h₁.of_cons h₂)
      intro z _ hbx
      rw [hb1 x y hbx] at h
      simp at h
    · rw [if_neg h]
      refine List.Pairwise.cons ?_ (badLast_merge hb1 hb2 (x :: l₁) l₂ h₁ h₂.of_cons)
      intro z hz hby
      have hbx : bad x = true := by
        by_contra hbx
        exact h (hb2 x y (by simpa using hbx) hby)
      rw [List.mem_merge] at hz
      rcases hz with hz | hz
      · rcases List.mem_cons.mp hz with rfl | hz
        · exact hbx
        · exact List.rel_of_pairwise_cons h₁ hz hbx
      · exact List.rel_of_pairwise_cons h₂ hz hby
termination_by l₁ l₂ => l₁.length + l₂.length

/-- A stable merge sort places every bad element behind every good one, for
any input order, whenever the order relation rejects bad left operands and
accepts good-versus-bad pairs. -/
theorem badLast_mergeSort {α : Type} {bad : α → Bool} {le : α → α → Bool}
    (hb1 : ∀ a b : α, bad a = true → le a b = false)
    (hb2 : ∀ a b : α, bad a = false → bad b = true → le a b = true) :
    ∀ l : List α,
      (l.mergeSort le).Pairwise (fun a b => bad a = true → bad b = true)
  | [] => by simp
  | [a] => by simp
  | a :: b :: xs => by
    have h₁ : (List.splitInTwo ⟨a :: b :: xs, rfl⟩).1.1.length < xs.length + 1 + 1 := by
      simp; omega
    have h₂ : (List.splitInTwo ⟨a :: b :: xs, rfl⟩).2.1.length < xs.length + 1 + 1 := by
      simp; omega
    rw [List.mergeSort]
    exact badLast_merge hb1 hb2 _ _
      (badLast_mergeSort hb1 hb2 _) (badLast_mergeSort hb1 hb2 _)
termination_by l => l.length

/-! Sortedness of `List.mergeSort` from transitivity and totality assumed only
on the elements of the list being sorted. The comparator of `handleSort` is
neither transitive nor total on all of `Person` (mixed-type values compare
equal to everything, two null values each order strictly after the other), so
the library lemma, which assumes both globally, does not apply; on collections
whose values are well-typed with at most one null these local versions do. -/

/-- Merging two sorted lists is sorted, with transitivity over the merged
elements and totality across the two lists. -/
theorem sorted_merge_local {α : Type} {le : α → α → Bool} :
    ∀ l₁ l₂ : List α,
      (∀ a ∈ l₁ ++ l₂, ∀ b ∈ l₁ ++ l₂, ∀ c ∈ l₁ ++ l₂,
        le a b = true → le b c = true → le a c = true) →
      (∀ a ∈ l₁, ∀ b ∈ l₂, le a b = true ∨ le b a = true) →
      l₁.Pairwise (fun a b => le a b = true) →
      l₂.Pairwise (fun a b => le a b = true) →
      (List.merge l₁ l₂ le).Pairwise (fun a b => le a b = true)
  | [], l₂, _, _, _, h₂ => by simpa using h₂
  | _ :: l₁, [], _, _, h₁, _ => by simpa using h₁
  | x :: l₁, y :: l₂, htrans, htot, h₁, h₂ => by
    have hsub₁ : ∀ a, a ∈ l₁ ++ y :: l₂ → a ∈ x :: l₁ ++ y :: l₂ := by
      intro a ha
      simp only [List.mem_append, List.mem_cons] at ha ⊢
      tauto
    have hsub₂ : ∀ a, a ∈ x :: l₁ ++ l₂ → a ∈ x :: l₁ ++ y :: l₂ := by
      intro a ha
      simp only [List.mem_append, List.mem_cons] at ha ⊢
      tauto
    rw [List.cons_merge_cons]
    by_cases h : le x y = true
    · rw [if_pos h]
      refine List.Pairwise.cons ?_ ?_
      · intro z hz
        rw [List.mem_merge] at hz
        rcases hz with hz | hz
        · exact List.rel_of_pairwise_cons h₁ hz
        · rcases List.mem_cons.mp hz with rfl | hz
          · exact h
          · refine htrans x (by simp) y (by simp) z ?_ h (List.rel_of_pairwise_cons h₂ hz)
            simp only [List.mem_append, List.mem_cons]
            tauto
      · exact sorted_merge_local l₁ (y :: l₂)
          (fun a ha b hb c hc => htrans a (hsub₁ a ha) b (hsub₁ b hb) c (hsub₁ c hc))
          (fun a ha b hb => htot a (List.mem_cons_of_mem x ha) b hb)
          h₁.of_cons h₂
    · rw [if_neg h]
      have hyx : le y x = true := by
        rcases htot x (List.mem_cons_self x l₁) y (List.mem_cons_self y l₂) with hxy | hyx
        · exact absurd hxy h
        · exact hyx
      refine List.Pairwise.cons ?_ ?_
      · intro z hz
        rw [List.mem_merge] at hz
        rcases hz with hz | hz
        · rcases List.mem_cons.mp hz with rfl | hz
          · exact hyx
          · refine htrans y (by simp) x (by simp) z ?_ hyx (List.rel_of_pairwise_cons h₁ hz)
            simp only [List.mem_append, List.mem_cons]
            tauto
        · exact List.rel_of_pairwise_cons h₂ hz
      · exact sorted_merge_local (x :: l₁) l₂
          (fun a ha b hb c hc => htrans a (hsub₂ a ha) b (hsub₂ b hb) c (hsub₂ c hc))
          (fun a ha b hb => htot a ha b (List.mem_cons_of_mem y hb))
          h₁ h₂.of_cons
termination_by l₁ l₂ => l₁.length + l₂.length

/-- The output of `List.mergeSort` is sorted when the order relation is
transitive on the elements of the list and total on every pair of elements at
distinct positions. -/
theorem sorted_mergeSort_local {α : Type} {le : α → α → Bool} :
    ∀ l : List α,
      (∀ a ∈ l, ∀ b ∈ l, ∀ c ∈ l, le a b = true → le b c = true → le a c = true) →
      l.Pairwise (fun a b => le a b = true ∨ le b a = true) →
      (l.mergeSort le).Pairwise (fun a b => le a b = true)
  | [], _, _ => by simp
  | [a], _, _ => by simp
  | a :: b :: xs, htrans, htot => by
    have hlen₁ : (List.splitInTwo ⟨a :: b :: xs, rfl⟩).1.1.length < xs.length + 1 + 1 := by
      simp; omega
    have hlen₂ : (List.splitInTwo ⟨a :: b :: xs, rfl⟩).2.1.length < xs.length + 1 + 1 := by
      simp; omega
    have happ : (List.splitInTwo ⟨a :: b :: xs, rfl⟩).1.1 ++
        (List.splitInTwo ⟨a :: b :: xs, rfl⟩).2.1 = a :: b :: xs :=
      List.splitInTwo_fst_append_splitInTwo_snd ⟨a :: b :: xs, rfl⟩
    have hmem₁ : ∀ z ∈ (List.splitInTwo ⟨a :: b :: xs, rfl⟩).1.1, z ∈ a :: b :: xs := by
      intro z hz
      rw [← happ]
      exact List.mem_append_left _ hz
    have hmem₂ : ∀ z ∈ (List.splitInTwo ⟨a :: b :: xs, rfl⟩).2.1, z ∈ a :: b :: xs := by
      intro z hz
      rw [← happ]
      exact List.mem_append_right _ hz
    have hpw : ((List.splitInTwo ⟨a :: b :: xs, rfl⟩).1.1 ++
        (List.splitInTwo ⟨a :: b :: xs, rfl⟩).2.1).Pairwise
          (fun a b => le a b = true ∨ le b a = true) := by
      rw [happ]
      exact htot
    rw [List.pairwise_append] at hpw
    obtain ⟨hpw₁, hpw₂, hcross⟩ := hpw
    rw [List.mergeSort]
    refine sorted_merge_local _ _ ?_ ?_ ?_ ?_
    · intro p hp q hq r hr
      simp only [List.mem_append, List.mem_mergeSort] at hp hq hr
      refine htrans p ?_ q ?_ r ?_
      · rcases hp with hp | hp
        · exact hmem₁ p hp
        · exact hmem₂ p hp
      · rcases hq with hq | hq
        · exact hmem₁ q hq
        · exact hmem₂ q hq
      · rcases hr with hr | hr
        · exact hmem₁ r hr
        · exact hmem₂ r hr
    · intro p hp q hq
      rw [List.mem_mergeSort] at hp hq
      exact hcross p hp q hq
    · exact sorted_mergeSort_local _
        (fun p hp q hq r hr => htrans p (hmem₁ p hp) q (hmem₁ q hq) r (hmem₁ r hr)) hpw₁
    · exact sorted_mergeSort_local _
        (fun p hp q hq r hr => htrans p (hmem₂ p hp) q (hmem₂ q hq) r (hmem₂ r hr)) hpw₂
termination_by l => l.length

/-! Facts about the comparator of `handleSort`. -/

/-- A sign of at most zero under `strCmp` is exactly the string order. -/
theorem strCmp_le_zero {a b : String} : strCmp a b ≤ 0 ↔ a ≤ b := by
  unfold strCmp
  split_ifs with h1 h2
  · exact iff_of_true (by norm_num) (le_of_lt h1)
  · exact iff_of_false (by norm_num) (not_le.mpr h2)
  · exact iff_of_true (by norm_num) (le_of_not_lt h2)

/-- The comparator is transitive at sign at-most-zero on pairwise
type-compatible values. -/
theorem cmpVals_trans (dir : Direction) :
    ∀ {x y z : Option JsValue}, sameTypeB x y = true → sameTypeB y z = true →
      cmpVals dir x y ≤ 0 → cmpVals dir y z ≤ 0 → cmpVals dir x z ≤ 0 := by
  intro x y z hxy hyz h1 h2
  rcases x with _ | v
  · simp [cmpVals] at h1
  rcases y with _ | w
  · simp [cmpVals] at h2
  rcases z with _ | u
  · simp [cmpVals]
  rcases v with a | a | a <;> rcases w with b | b | b <;> rcases u with c | c | c <;>
    simp only [sameTypeB, JsValue.typeOf, beq_iff_eq] at hxy hyz <;>
    first
      | exact absurd hxy (by decide)
      | exact absurd hyz (by decide)
      | (cases dir <;>
          simp only [cmpVals] at h1 h2 ⊢ <;>
          first
            | omega
            | (revert h1 h2; cases a <;> cases b <;> cases c <;> decide)
            | exact strCmp_le_zero.mpr
                (le_trans (strCmp_le_zero.mp h1) (strCmp_le_zero.mp h2))
            | exact strCmp_le_zero.mpr
                (le_trans (strCmp_le_zero.mp h2) (strCmp_le_zero.mp h1)))

/-- The comparator is total at sign at-most-zero unless both values are
null. -/
theorem cmpVals_total (dir : Direction) :
    ∀ {x y : Option JsValue}, ¬(x = none ∧ y = none) →
      cmpVals dir x y ≤ 0 ∨ cmpVals dir y x ≤ 0 := by
  intro x y h
  rcases x with _ | v
  · rcases y with _ | w
    · exact absurd ⟨rfl, rfl⟩ h
    · right
      simp [cmpVals]
  rcases y with _ | w
  · left
    simp [cmpVals]
  rcases v with a | a | a <;> rcases w with b | b | b <;> cases dir <;> simp_all [cmpVals]
  · rcases le_total a b with hab | hba
    · exact Or.inl (strCmp_le_zero.mpr hab)
    · exact Or.inr (strCmp_le_zero.mpr hba)
  · rcases le_total a b with hab | hba
    · exact Or.inr (strCmp_le_zero.mpr hab)
    · exact Or.inl (strCmp_le_zero.mpr hba)
  · omega
  · omega
  · cases a <;> cases b <;> simp
  · cases a <;> cases b <;> simp

/-- On a collection with at most one null value at the sort key, every pair of
rows at distinct positions is ordered one way or the other by `rowLe`. -/
theorem pairwiseTotal_of_count (dir : Direction) (key : String) :
    ∀ l : List Person, l.countP (fun p => (getField p key).isNone) ≤ 1 →
      l.Pairwise (fun a b => rowLe dir key a b = true ∨ rowLe dir key b a = true)
  | [], _ => by simp
  | p :: l, h => by
    rw [List.countP_cons] at h
    refine List.Pairwise.cons ?_ (pairwiseTotal_of_count dir key l (by omega))
    intro q hq
    by_cases hp : (getField p key).isNone = true
    · rw [if_pos hp] at h
      have hzero : l.countP (fun r => (getField r key).isNone) = 0 := by omega
      have hq' : ¬((getField q key).isNone = true) := by
        have := List.countP_eq_zero.mp hzero q hq
        simpa using this
      right
      rcases hgq : getField q key with _ | w
      · exact absurd (by simp [hgq]) hq'
      · simp [rowLe, hgq, Option.isNone_iff_eq_none.mp hp, cmpVals]
    · have hx : ¬(getField p key = none ∧ getField q key = none) := by
        intro hcon
        exact hp (by simp [hcon.1])
      rcases cmpVals_total dir hx with hle | hle
      · left
        simpa [rowLe] using hle
      · right
        simpa [rowLe] using hle

/-! Decimal rendering used by the generated column identifiers. -/

/-- Reading a decimal digit character back. -/
theorem digitChar_val {d : Nat} (h : d < 10) : (Nat.digitChar d).toNat - 48 = d := by
  interval_cases d <;> decide

/-- Decoding inverts the fuel-bounded digit rendering when the fuel bounds the
number. -/
theorem decode_natDigitsAux : ∀ fuel n : Nat, n < fuel →
    decodeDigits (natDigitsAux fuel n) = n
  | 0, _, h => absurd h (by omega)
  | fuel + 1, n, h => by
    rw [natDigitsAux]
    by_cases h10 : n < 10
    · rw [if_pos h10]
      simp [decodeDigits, digitChar_val h10]
    · rw [if_neg h10]
      have hrec : n / 10 < fuel := by
        have hdiv : n / 10 < n := Nat.div_lt_self (by omega) (by omega)
        omega
      have ih := decode_natDigitsAux fuel (n / 10) hrec
      unfold decodeDigits at ih ⊢
      rw [List.foldl_append, ih]
      simp only [List.foldl_cons, List.foldl_nil]
      rw [digitChar_val (Nat.mod_lt n (by omega))]
      omega

/-- Decimal rendering is injective. -/
theorem natToString_inj {m n : Nat} (h : natToString m = natToString n) : m = n := by
  have hd : natDigitsAux (m + 1) m = natDigitsAux (n + 1) n := congrArg String.data h
  have h1 := decode_natDigitsAux (m + 1) m (by omega)
  have h2 := decode_natDigitsAux (n + 1) n (by omega)
  rw [hd] at h1
  exact h1.symm.trans h2

/-- Generated column identifiers are injective in the counter. -/
theorem dynColId_inj {m n : Nat} (h : dynColId m = dynColId n) : m = n := by
  have hd : ("dynamic-col-" ++ natToString m).data = ("dynamic-col-" ++ natToString n).data :=
    congrArg String.data h
  rw [String.data_append, String.data_append] at hd
  exact natToString_inj (String.ext (List.append_cancel_left hd))

/-- Generated column identifiers start with the letter `d`. -/
theorem dynColId_data_head (k : Nat) : (dynColId k).data.head? = some 'd' := rfl

/-- No initial column carries a generated identifier. -/
theorem initial_id_ne_dynColId : ∀ c ∈ initialColumns, ∀ k : Nat, c.id ≠ dynColId k := by
  intro c hc k h
  have h1 : c.id.data.head? = some 'd' := by
    rw [h]
    exact dynColId_data_head k
  fin_cases hc <;> exact absurd h1 (by decide)

/-! Facts about `arrayMove`. -/

/-- With a resolved source index, `arrayMove` is the remove-then-reinsert
splice. -/
theorem arrayMove_eq (l : List α) (i j : Nat) (hi : i < l.length) :
    arrayMove l i j = (l.eraseIdx i).insertIdx j l[i] := by
  unfold arrayMove
  rw [List.getElem?_eq_getElem hi]

/-- Removing position `i` and re-consing the removed element is a
permutation. -/
theorem perm_cons_eraseIdx (l : List α) (i : Nat) (hi : i < l.length) :
    List.Perm (l[i] :: l.eraseIdx i) l := by
  have h2 : l.take i ++ l[i] :: l.drop (i + 1) = l := by
    rw [← List.drop_eq_getElem_cons hi]
    exact List.take_append_drop i l
  rw [List.eraseIdx_eq_take_drop_succ]
  conv_rhs => rw [← h2]
  exact List.perm_middle.symm

/-- For valid positions, `arrayMove` permutes the sequence. -/
theorem arrayMove_perm (l : List α) (i j : Nat) (hi : i < l.length) (hj : j < l.length) :
    List.Perm (arrayMove l i j) l := by
  rw [arrayMove_eq l i j hi]
  have hlen : j ≤ (l.eraseIdx i).length := by
    rw [List.length_eraseIdx_of_lt hi]
    omega
  exact (List.perm_insertIdx _ _ hlen).trans (perm_cons_eraseIdx l i hi)

/-- For valid positions, the moved element lands at the target position. -/
theorem arrayMove_getElem? (l : List α) (i j : Nat) (hi : i < l.length) (hj : j < l.length) :
    (arrayMove l i j)[j]? = l[i]? := by
  rw [arrayMove_eq l i j hi]
  have hlen : j ≤ (l.eraseIdx i).length := by
    rw [List.length_eraseIdx_of_lt hi]
    omega
  have hb : j < ((l.eraseIdx i).insertIdx j l[i]).length := by
    rw [List.length_insertIdx _ _ hlen]
    omega
  rw [List.getElem?_eq_getElem hb, List.getElem?_eq_getElem hi]
  rw [List.getElem_insertIdx_self _ _ _ hlen]

/-- Removing the moved element from the target position restores the sequence
with the source position removed: all other elements keep their relative
order. -/
theorem arrayMove_eraseIdx (l : List α) (i j : Nat) (hi : i < l.length) :
    (arrayMove l i j).eraseIdx j = l.eraseIdx i := by
  rw [arrayMove_eq l i j hi, List.eraseIdx_insertIdx]

/-- A resolved `findIdx?` position is in range. -/
theorem findIdx?_lt_length {α : Type} {p : α → Bool} {l : List α} {i : Nat}
    (h : l.findIdx? p = some i) : i < l.length :=
  (List.findIdx?_eq_some_iff_findIdx_eq.mp h).1

/-- The row branch of `handleDragEnd` is a no-op whenever either identifier
fails to resolve to a row position. -/
theorem dragEndRows_noop {data : List Person} {activeId overId : String}
    (h : rowIdxOf data activeId = none ∨ rowIdxOf data overId = none) :
    dragEndRows data activeId overId = data := by
  unfold dragEndRows
  split
  · rcases h with h | h
    · rw [h]
    · rw [h]
      cases rowIdxOf data activeId <;> rfl
  · rfl

/-- The column branch of `handleDragEnd` is a no-op whenever either identifier
fails to resolve to a dynamic-column position. -/
theorem dragEndCols_noop {cols : List ColumnDef} {activeId overId : String}
    (h : colIdxOf cols activeId = none ∨ colIdxOf cols overId = none) :
    dragEndCols cols activeId overId = cols := by
  unfold dragEndCols
  split
  · rcases h with h | h
    · rw [h]
    · rw [h]
      cases colIdxOf cols activeId <;> rfl
  · rfl

/-! The claims. -/

/-- C1: for every sequence and every pair of valid positions, the `arrayMove`
reorder performed inside `handleDragEnd` (the same polymorphic operation
serves the row sequence and the dynamic-column sequence) yields a permutation
of the same elements in which the element originally at `fromIndex` now sits
at `toIndex`, while removing it again at `toIndex` recovers exactly the
original sequence without the source element, so all other elements keep
their relative order. -/
theorem claim_C1_arrayMove_reorder {α : Type} (l : List α) (i j : Nat)
    (hi : i < l.length) (hj : j < l.length) :
    List.Perm (arrayMove l i j) l ∧
    (arrayMove l i j)[j]? = l[i]? ∧
    (arrayMove l i j).eraseIdx j = l.eraseIdx i :=
  ⟨arrayMove_perm l i j hi hj, arrayMove_getElem? l i j hi hj, arrayMove_eraseIdx l i j hi⟩

/-- Witness for C1 at the documented scenario: moving the head of a
three-element sequence onto the last position. -/
theorem claim_C1_witness :
    List.Perm (arrayMove [10, 20, 30] 0 2) [10, 20, 30] ∧
    (arrayMove [10, 20, 30] 0 2)[2]? = [10, 20, 30][0]? ∧
    (arrayMove ([10, 20, 30] : List Nat) 0 2).eraseIdx 2 = [10, 20, 30].eraseIdx 0 :=
  claim_C1_arrayMove_reorder [10, 20, 30] 0 2 (by decide) (by decide)

/-- C5 counterexample: from a state with a selected row and both popover
levels open, the regenerate action leaves the selection mapping non-empty and
both popover flags raised, so it neither empties the selection nor closes the
popovers. -/
theorem claim_C5_counterexample :
    ¬((rerender stateWithSelectionAndPopovers 20).rowSelection = [] ∧
      (rerender stateWithSelectionAndPopovers 20).showPopover = false ∧
      (rerender stateWithSelectionAndPopovers 20).showSortPopover = false) := by
  intro h
  exact absurd h.1 (by decide)

/-- C5 amended: the regenerate action replaces the row collection with the
freshly generated batch of the requested size and leaves everything else -
the dynamic columns, the selection mapping and both popover levels - exactly
as they were; stale selection keys simply no longer match any row, and an open
popover is closed by the outside-pointer-down listener rather than by the
action. -/
theorem claim_C5_amended (st : TableState) (count : Nat) :
    (rerender st count).data = makeData count ∧
    (rerender st count).dynamicColumns = st.dynamicColumns ∧
    (rerender st count).rowSelection = st.rowSelection ∧
    (rerender st count).showPopover = st.showPopover ∧
    (rerender st count).showSortPopover = st.showSortPopover :=
  ⟨rfl, rfl, rfl, rfl, rfl⟩

/-- C6: when every dynamic column matching the requested identifier lacks a
field accessor (in particular when no column matches at all), `handleSort`
returns the rows unchanged with the developer diagnostic flagged, and returns
normally. -/
theorem claim_C6_invalid_sort (cols : List ColumnDef) (data : List Person)
    (columnId : String) (dir : Direction)
    (h : ∀ c ∈ cols, c.id = replaceFirst columnId "col-" "" → c.accessorKey = none) :
    handleSort cols data columnId dir = { data := data, warned := true } := by
  have hfind : (cols.find? fun c =>
      c.id == replaceFirst columnId "col-" "" && c.accessorKey.isSome) = none := by
    apply List.find?_eq_none.mpr
    intro c hc
    by_cases hid : c.id = replaceFirst columnId "col-" ""
    · simp [hid, h c hc hid]
    · simp [hid]
  unfold handleSort resolveAccessor
  simp only [hfind]

/-- Witness for C6: a sort request against an identifier matching no dynamic
column warns and leaves the initial rows as they are. -/
theorem claim_C6_witness :
    (∀ c ∈ initialColumns, c.id = replaceFirst "col-bogus" "col-" "" → c.accessorKey = none) ∧
    handleSort initialColumns [demoA, demoB, demoC] "col-bogus" Direction.asc =
      { data := [demoA, demoB, demoC], warned := true } :=
  ⟨by decide,
    claim_C6_invalid_sort initialColumns [demoA, demoB, demoC] "col-bogus" Direction.asc
      (by decide)⟩

/-- C7: a drag end with no drop target, with the drop target equal to the
source, or with identifiers that do not both resolve in the corresponding
sequence leaves the row sequence and the dynamic-column sequence unchanged,
and the handler returns normally. -/
theorem claim_C7_dragEnd_noop (data : List Person) (cols : List ColumnDef)
    (e : DragEndEvent)
    (h : e.overId = none ∨ e.overId = some e.activeId ∨
      ∀ over, e.overId = some over →
        (rowIdxOf data e.activeId = none ∨ rowIdxOf data over = none) ∧
        (colIdxOf cols e.activeId = none ∨ colIdxOf cols over = none)) :
    handleDragEnd data cols e = (data, cols) := by
  obtain ⟨activeId, overId⟩ := e
  unfold handleDragEnd
  rcases overId with _ | over
  · rfl
  · simp only at h ⊢
    by_cases heq : activeId = over
    · rw [if_pos heq]
    · rw [if_neg heq]
      rcases h with h | h | h
      · exact absurd h (by simp)
      · rw [Option.some_inj] at h
        exact absurd h.symm heq
      · obtain ⟨hrow, hcol⟩ := h over rfl
        rw [dragEndRows_noop hrow, dragEndCols_noop hcol]

/-- Witness for C7: a drag end without a drop target changes nothing. -/
theorem claim_C7_witness :
    handleDragEnd [demoA, demoB, demoC] initialColumns
      { activeId := "row-a", overId := none } = ([demoA, demoB, demoC], initialColumns) :=
  claim_C7_dragEnd_noop [demoA, demoB, demoC] initialColumns
    { activeId := "row-a", overId := none } (Or.inl rfl)

/-- C8: the remove-row action keeps exactly the rows whose identifier is not
selected - every selected row is deleted, no unselected row is deleted - and
afterwards the selection mapping is empty, so no stale identifier remains
selected. -/
theorem claim_C8_removeRow (st : TableState) :
    (∀ r : Person, r ∈ (removeRow st).data ↔
      r ∈ st.data ∧ st.rowSelection.contains r.userId = false) ∧
    (removeRow st).rowSelection = [] := by
  refine ⟨?_, rfl⟩
  intro r
  simp [removeRow, List.mem_filter]

/-- C9: with the level-1 popover open on a target column - regardless of
whether the level-2 sort popover is open - the delete action removes every
dynamic column carrying the target identifier, keeps every other column, and
lowers both popover-visible flags. -/
theorem claim_C9_delete_closes (st : TableState) (t : String)
    (hshow : st.showPopover = true) (htarget : st.targetColumnId = some t) :
    (deleteColumnAction st).showPopover = false ∧
    (deleteColumnAction st).showSortPopover = false ∧
    (∀ c ∈ (deleteColumnAction st).dynamicColumns, "col-" ++ c.id ≠ t) ∧
    (∀ c ∈ st.dynamicColumns, "col-" ++ c.id ≠ t →
      c ∈ (deleteColumnAction st).dynamicColumns) := by
  unfold deleteColumnAction
  rw [hshow, htarget]
  refine ⟨rfl, rfl, ?_, ?_⟩
  · intro c hc
    have := (List.mem_filter.mp hc).2
    simpa using this
  · intro c hc hne
    apply List.mem_filter.mpr
    refine ⟨hc, ?_⟩
    simpa using hne

/-- Witness for C9: deleting the age column while its sort popover is open
closes both levels and removes it. -/
theorem claim_C9_witness :
    (deleteColumnAction stateWithSelectionAndPopovers).showPopover = false ∧
    (deleteColumnAction stateWithSelectionAndPopovers).showSortPopover = false ∧
    (∀ c ∈ (deleteColumnAction stateWithSelectionAndPopovers).dynamicColumns,
      "col-" ++ c.id ≠ "col-age") ∧
    (∀ c ∈ stateWithSelectionAndPopovers.dynamicColumns, "col-" ++ c.id ≠ "col-age" →
      c ∈ (deleteColumnAction stateWithSelectionAndPopovers).dynamicColumns) :=
  claim_C9_delete_closes stateWithSelectionAndPopovers "col-age" rfl rfl

/-- Null-valued rows sink behind non-null rows under `sortRows`, for every
collection, key and direction: the comparator rejects a null left operand
outright and accepts any non-null-versus-null pair. -/
theorem sortRows_nullsLast (data : List Person) (key : String) (dir : Direction) :
    (sortRows data key dir).Pairwise
      (fun a b => getField a key = none → getField b key = none) := by
  have hb1 : ∀ a b : Person, (getField a key).isNone = true →
      rowLe dir key a b = false := by
    intro a b ha
    rw [Option.isNone_iff_eq_none] at ha
    simp [rowLe, ha, cmpVals]
  have hb2 : ∀ a b : Person, (getField a key).isNone = false →
      (getField b key).isNone = true → rowLe dir key a b = true := by
    intro a b ha hb
    rw [Option.isNone_iff_eq_none] at hb
    rcases hga : getField a key with _ | v
    · rw [hga] at ha
      simp at ha
    · simp [rowLe, hga, hb, cmpVals]
  refine (badLast_mergeSort hb1 hb2 data).imp ?_
  intro a b hab hna
  have hb := hab (by simp [hna])
  simpa using hb

/-- C2: after `handleSort` on any resolvable column, every row whose value at
the column's accessor is null/undefined follows every row with a non-null
value, whatever the requested direction; in particular the documented
scenario sorted by age ascending yields [c, a, b] and descending
yields [a, c, b]. -/
theorem claim_C2_nulls_last :
    (∀ (cols : List ColumnDef) (data : List Person) (columnId key : String)
        (dir : Direction),
      resolveAccessor cols columnId = some key →
      (handleSort cols data columnId dir).data.Pairwise
        (fun a b => getField a key = none → getField b key = none)) ∧
    (handleSort initialColumns [demoA, demoB, demoC] "col-age" Direction.asc).data =
      [demoC, demoA, demoB] ∧
    (handleSort initialColumns [demoA, demoB, demoC] "col-age" Direction.desc).data =
      [demoA, demoC, demoB] := by
  refine ⟨?_, ?_, ?_⟩
  · intro cols data columnId key dir hres
    unfold handleSort
    rw [hres]
    exact sortRows_nullsLast data key dir
  · unfold handleSort
    rw [show resolveAccessor initialColumns "col-age" = some "age" from rfl]
    show sortRows [demoA, demoB, demoC] "age" Direction.asc = [demoC, demoA, demoB]
    unfold sortRows
    rw [mergeSort_triple]
    simp +decide [rowLe, cmpVals, getField, demoA, demoB, demoC, List.merge]
  · unfold handleSort
    rw [show resolveAccessor initialColumns "col-age" = some "age" from rfl]
    show sortRows [demoA, demoB, demoC] "age" Direction.desc = [demoA, demoC, demoB]
    unfold sortRows
    rw [mergeSort_triple]
    simp +decide [rowLe, cmpVals, getField, demoA, demoB, demoC, List.merge]

/-- Witness for C2: the universal part applied to the age column on the
documented rows. -/
theorem claim_C2_witness :
    (handleSort initialColumns [demoA, demoB, demoC] "col-age" Direction.asc).data.Pairwise
      (fun a b => getField a "age" = none → getField b "age" = none) :=
  claim_C2_nulls_last.1 initialColumns [demoA, demoB, demoC] "col-age" "age"
    Direction.asc rfl

/-- One application of `handleSort` by age ascending on the two
undefined-valued rows swaps them. -/
theorem handleSort_two_nulls_once :
    (handleSort initialColumns [rowN1, rowN2] "col-age" Direction.asc).data =
      [rowN2, rowN1] := by
  unfold handleSort
  rw [show resolveAccessor initialColumns "col-age" = some "age" from rfl]
  show sortRows [rowN1, rowN2] "age" Direction.asc = [rowN2, rowN1]
  unfold sortRows
  rw [mergeSort_pair]
  simp +decide [rowLe, cmpVals, getField, rowN1, rowN2]

/-- A second application swaps the two undefined-valued rows back. -/
theorem handleSort_two_nulls_twice :
    (handleSort initialColumns [rowN2, rowN1] "col-age" Direction.asc).data =
      [rowN1, rowN2] := by
  unfold handleSort
  rw [show resolveAccessor initialColumns "col-age" = some "age" from rfl]
  show sortRows [rowN2, rowN1] "age" Direction.asc = [rowN1, rowN2]
  unfold sortRows
  rw [mergeSort_pair]
  simp +decide [rowLe, cmpVals, getField, rowN1, rowN2]

/-- C3 counterexample: on two rows whose values at the sort key are both
undefined, the comparator orders each strictly after the other (it returns 1
whenever `valA` is null), so every sort application swaps them: applying
`handleSort` twice with the same column and direction differs from applying
it once. -/
theorem claim_C3_counterexample :
    (handleSort initialColumns
        (handleSort initialColumns [rowN1, rowN2] "col-age" Direction.asc).data
        "col-age" Direction.asc).data ≠
      (handleSort initialColumns [rowN1, rowN2] "col-age" Direction.asc).data := by
  rw [handleSort_two_nulls_once, handleSort_two_nulls_twice]
  decide

/-- C3 amended: sorting is idempotent under repeated application with the same
column and direction on every collection whose values at the sort accessor
include at most one null/undefined entry and agree pairwise on one scalar
type; without these restrictions idempotence fails (two null values swap on
every pass, and mixed-type values make the comparator non-transitive). -/
theorem claim_C3_amended (data : List Person) (key : String) (dir : Direction)
    (h1 : data.countP (fun p => (getField p key).isNone) ≤ 1)
    (h2 : ∀ p ∈ data, ∀ q ∈ data,
      sameTypeB (getField p key) (getField q key) = true) :
    sortRows (sortRows data key dir) key dir = sortRows data key dir := by
  have htrans : ∀ a ∈ data, ∀ b ∈ data, ∀ c ∈ data,
      rowLe dir key a b = true → rowLe dir key b c = true →
      rowLe dir key a c = true := by
    intro a ha b hb c hc hab hbc
    have h := cmpVals_trans dir (h2 a ha b hb) (h2 b hb c hc)
      (by simpa [rowLe] using hab) (by simpa [rowLe] using hbc)
    simpa [rowLe] using h
  have hsorted : (data.mergeSort (rowLe dir key)).Pairwise
      (fun a b => rowLe dir key a b = true) :=
    sorted_mergeSort_local data htrans (pairwiseTotal_of_count dir key data h1)
  show List.mergeSort (sortRows data key dir) (rowLe dir key) = sortRows data key dir
  exact List.mergeSort_of_sorted hsorted

/-- Witness for C3 as amended: the documented rows have one undefined age and
otherwise numeric ages, and sorting them twice equals sorting them once. -/
theorem claim_C3_witness :
    ([demoA, demoB, demoC].countP (fun p => (getField p "age").isNone) ≤ 1) ∧
    sortRows (sortRows [demoA, demoB, demoC] "age" Direction.asc) "age" Direction.asc =
      sortRows [demoA, demoB, demoC] "age" Direction.asc :=
  ⟨by decide,
    claim_C3_amended [demoA, demoB, demoC] "age" Direction.asc (by decide) (by decide)⟩

/-- C10: whatever the request, `handleSort` returns a permutation of the input
row collection - no row record is added, removed or duplicated by sorting. -/
theorem claim_C10_handleSort_perm (cols : List ColumnDef) (data : List Person)
    (columnId : String) (dir : Direction) :
    List.Perm (handleSort cols data columnId dir).data data := by
  unfold handleSort
  cases resolveAccessor cols columnId
  · exact List.Perm.refl data
  · exact List.mergeSort_perm data _

/-! Machinery for C4: uniqueness of the dynamic-column identifiers. -/

/-- The initial columns satisfy the pre-deletion invariant. -/
theorem colInv_initial : ColInv initialColumns :=
  ⟨by decide, by decide, fun c hc k hk => absurd hk (initial_id_ne_dynColId c hc k)⟩

/-- Adding a column preserves the pre-deletion invariant: the bound on the
counters of generated identifiers makes the next identifier fresh. -/
theorem colInv_add {cols : List ColumnDef} (h : ColInv cols) :
    ColInv (addDynamicColumn cols) := by
  obtain ⟨hnd, hlen, hbound⟩ := h
  have hids : idsOf (addDynamicColumn cols) = idsOf cols ++ [dynColId (cols.length + 1)] := by
    simp [idsOf, addDynamicColumn]
  have hlen' : (addDynamicColumn cols).length = cols.length + 1 := by
    simp [addDynamicColumn]
  refine ⟨?_, ?_, ?_⟩
  · rw [hids, List.nodup_append]
    refine ⟨hnd, List.nodup_singleton _, ?_⟩
    intro s hs hs'
    rw [List.mem_singleton] at hs'
    subst hs'
    obtain ⟨c, hc, hcid⟩ := List.mem_map.mp hs
    have := hbound c hc (cols.length + 1) hcid
    omega
  · rw [hlen']
    omega
  · intro c hc k hk
    rw [hlen']
    rcases List.mem_append.mp hc with hc | hc
    · have := hbound c hc k hk
      omega
    · rw [List.mem_singleton] at hc
      subst hc
      have : cols.length + 1 = k := dynColId_inj hk
      omega

/-- Identifier uniqueness transfers along a permutation of the columns. -/
theorem nodup_idsOf_of_perm {cols cols' : List ColumnDef} (hp : List.Perm cols' cols)
    (h : (idsOf cols).Nodup) : (idsOf cols').Nodup := by
  have h' : List.Perm (idsOf cols') (idsOf cols) := hp.map ColumnDef.id
  exact h'.nodup_iff.mpr h

/-- The pre-deletion invariant transfers along a permutation of the
sequence. -/
theorem colInv_perm {cols cols' : List ColumnDef} (hp : List.Perm cols' cols)
    (h : ColInv cols) : ColInv cols' := by
  obtain ⟨hnd, hlen, hbound⟩ := h
  refine ⟨nodup_idsOf_of_perm hp hnd, ?_, ?_⟩
  · rw [hp.length_eq]
    exact hlen
  · intro c hc k hk
    rw [hp.length_eq]
    exact hbound c (hp.mem_iff.mp hc) k hk

/-- The column branch of a drag end permutes the dynamic-column sequence. -/
theorem dragEndCols_perm (cols : List ColumnDef) (a o : String) :
    List.Perm (dragEndCols cols a o) cols := by
  unfold dragEndCols
  split
  · rcases h1 : colIdxOf cols a with _ | i
    · exact List.Perm.refl cols
    · rcases h2 : colIdxOf cols o with _ | j
      · exact List.Perm.refl cols
      · unfold colIdxOf at h1 h2
        exact arrayMove_perm cols i j (findIdx?_lt_length h1) (findIdx?_lt_length h2)
  · exact List.Perm.refl cols

/-- A reorder operation permutes the dynamic-column sequence. -/
theorem applyColOp_reorder_perm (cols : List ColumnDef) (a : String) (o : Option String) :
    List.Perm (applyColOp cols (ColOp.reorder a o)) cols := by
  rcases o with _ | over
  · exact List.Perm.refl cols
  · show List.Perm (if a = over then cols else dragEndCols cols a over) cols
    split
    · exact List.Perm.refl cols
    · exact dragEndCols_perm cols a over

/-- A delete operation preserves uniqueness of the identifiers. -/
theorem nodup_delete (cols : List ColumnDef) (t : String)
    (h : (idsOf cols).Nodup) :
    (idsOf (cols.filter fun c => !(("col-" ++ c.id) == t))).Nodup := by
  have hsub : List.Sublist (idsOf (cols.filter fun c => !(("col-" ++ c.id) == t)))
      (idsOf cols) :=
    (List.filter_sublist cols).map ColumnDef.id
  exact h.sublist hsub

/-- Once adding is over, delete and reorder operations keep the identifiers
unique. -/
theorem nodup_applyColOps_noAdd :
    ∀ (ops : List ColOp) (cols : List ColumnDef), noAddAfterDeleteAux true ops = true →
      (idsOf cols).Nodup → (idsOf (applyColOps cols ops)).Nodup
  | [], _, _, h => h
  | .add :: _, _, hops, _ => by
    simp [noAddAfterDeleteAux] at hops
  | .delete t :: ops, cols, hops, h =>
    nodup_applyColOps_noAdd ops _ (by simpa [noAddAfterDeleteAux] using hops)
      (nodup_delete cols t h)
  | .reorder a o :: ops, cols, hops, h =>
    nodup_applyColOps_noAdd ops _ (by simpa [noAddAfterDeleteAux] using hops)
      (nodup_idsOf_of_perm (applyColOp_reorder_perm cols a o) h)

/-- While no delete has occurred, the invariant persists, and after the first
delete the identifiers stay unique. -/
theorem nodup_applyColOps_of_inv :
    ∀ (ops : List ColOp) (cols : List ColumnDef), noAddAfterDeleteAux false ops = true →
      ColInv cols → (idsOf (applyColOps cols ops)).Nodup
  | [], _, _, h => h.1
  | .add :: ops, cols, hops, h =>
    nodup_applyColOps_of_inv ops _ (by simpa [noAddAfterDeleteAux] using hops)
      (colInv_add h)
  | .delete t :: ops, cols, hops, h =>
    nodup_applyColOps_noAdd ops _ (by simpa [noAddAfterDeleteAux] using hops)
      (nodup_delete cols t h.1)
  | .reorder a o :: ops, cols, hops, h =>
    nodup_applyColOps_of_inv ops _ (by simpa [noAddAfterDeleteAux] using hops)
      (colInv_perm (applyColOp_reorder_perm cols a o) h)

/-- C4 counterexample: adding a column (`dynamic-col-7`), deleting the first
name column, and adding again regenerates `dynamic-col-7` from the length, so
the identifier occurs twice in the dynamic-column sequence. -/
theorem claim_C4_counterexample :
    ¬(idsOf (applyColOps initialColumns
        [ColOp.add, ColOp.delete "col-firstName", ColOp.add])).Nodup := by
  decide

/-- C4 amended: every column identifier appears at most once after any
sequence of add-column, delete-column and column-reorder operations in which
no add occurs after a delete; an add performed after a delete can regenerate
an identifier still in use, because the generated name depends only on the
current length. -/
theorem claim_C4_amended (ops : List ColOp) (h : noAddAfterDelete ops = true) :
    (idsOf (applyColOps initialColumns ops)).Nodup :=
  nodup_applyColOps_of_inv ops initialColumns h colInv_initial

/-- Witness for C4 as amended: add twice, reorder, then delete - identifiers
stay unique. -/
theorem claim_C4_witness :
    noAddAfterDelete [ColOp.add, ColOp.add,
      ColOp.reorder "col-age" (some "col-firstName"), ColOp.delete "col-age"] = true ∧
    (idsOf (applyColOps initialColumns [ColOp.add, ColOp.add,
      ColOp.reorder "col-age" (some "col-firstName"), ColOp.delete "col-age"])).Nodup :=
  ⟨by decide,
    claim_C4_amended [ColOp.add, ColOp.add,
      ColOp.reorder "col-age" (some "col-firstName"), ColOp.delete "col-age"] (by decide)⟩

end TableDemo
